import Mathlib

/-!
Shallow embedding of the four `two_sum` implementations in
`coding-challenges/template/` (david.py, joseantonio.py, jp.py, patrick.py),
together with proofs of the specified properties.

Python integers are modelled by `Int` (arbitrary precision, no overflow),
list indices by `Nat`, Python lists by `List`, and the Python `dict`
(insert-or-overwrite, key lookup) by an association list with head
insertion and first-match lookup, which realizes the same
latest-insertion-wins semantics.
-/

namespace TwoSum

/-- The loop of `two_sum` in david.py: iterate over the remaining elements
`l` starting at index `i`, with `numMap` the dictionary built so far
(`num_map[num] = i` modelled by head insertion, so `List.lookup` returns the
most recent index stored for a value, exactly as a Python dict overwrite). -/
def davidGo (target : Int) : List (Int × Nat) → List Int → Nat → List Nat
  | _, [], _ => []
  | numMap, num :: rest, i =>
    let complement := target - num
    match numMap.lookup complement with
    | some k => [k, i]
    | none => davidGo target ((num, i) :: numMap) rest (i + 1)

/-- `two_sum` of david.py (hash map, single pass). -/
def david_two_sum (nums : List Int) (target : Int) : List Nat :=
  davidGo target [] nums 0

/-- The loop of `two_sum` in joseantonio.py: identical algorithm with
different local names (`seen`, `index`, `value`, `diff`). -/
def joseGo (target : Int) : List (Int × Nat) → List Int → Nat → List Nat
  | _, [], _ => []
  | seen, value :: rest, index =>
    let diff := target - value
    match seen.lookup diff with
    | some k => [k, index]
    | none => joseGo target ((value, index) :: seen) rest (index + 1)

/-- `two_sum` of joseantonio.py (hash map, single pass). -/
def joseantonio_two_sum (nums : List Int) (target : Int) : List Nat :=
  joseGo target [] nums 0

/-- The inner loop of `two_sum` in jp.py: `for j in range(i+1, len(nums))`,
returning the first `j` with `nums[i] + nums[j] == target` (here entered at
an arbitrary start value of `j`). -/
def jpInner (nums : List Int) (target : Int) (i j : Nat) : Option (Nat × Nat) :=
  if _h : j < nums.length then
    if nums.getD i 0 + nums.getD j 0 = target then some (i, j)
    else jpInner nums target i (j + 1)
  else none
termination_by nums.length - j

/-- The outer loop of `two_sum` in jp.py: `for i in range(len(nums))`; a
`return` inside the inner loop exits both loops, modelled by the `Option`
result of `jpInner`. -/
def jpOuter (nums : List Int) (target : Int) (i : Nat) : List Nat :=
  if _h : i < nums.length then
    match jpInner nums target i (i + 1) with
    | some (a, b) => [a, b]
    | none => jpOuter nums target (i + 1)
  else []
termination_by nums.length - i

/-- `two_sum` of jp.py (brute force, double loop). -/
def jp_two_sum (nums : List Int) (target : Int) : List Nat :=
  jpOuter nums target 0

/-- The sort key of patrick.py, `key=lambda x: x[1]`: compare
(index, value) pairs by value. -/
def pairLe (a b : Nat × Int) : Prop := a.2 ≤ b.2

instance : DecidableRel pairLe := fun a b => by unfold pairLe; infer_instance

instance : IsTotal (Nat × Int) pairLe := ⟨fun a b => by unfold pairLe; omega⟩

instance : IsTrans (Nat × Int) pairLe := ⟨fun a b c => by unfold pairLe; omega⟩

/-- `sorted(enumerate(nums), key=lambda x: x[1])` of patrick.py.  Python's
`sorted` is the stable sort by the key; the stable sort is a unique function
of the key relation, and `List.insertionSort` with `pairLe` is stable, so it
is that function. -/
def patrickSorted (nums : List Int) : List (Nat × Int) :=
  List.insertionSort pairLe nums.enum

/-- The `while left < right` loop of `two_sum` in patrick.py, acting on the
value-sorted list `s` of (original index, value) pairs.  Python's
`sorted([a, b])` on two numbers is `[min, max]`, written out as a
conditional.  Out-of-range accesses cannot occur in the reachable states, so
the `getD` default is never consulted. -/
def tpLoop (s : List (Nat × Int)) (target : Int) (left right : Nat) : List Nat :=
  if _h : left < right then
    if (s.getD left (0, 0)).2 + (s.getD right (0, 0)).2 = target then
      if (s.getD left (0, 0)).1 ≤ (s.getD right (0, 0)).1 then
        [(s.getD left (0, 0)).1, (s.getD right (0, 0)).1]
      else
        [(s.getD right (0, 0)).1, (s.getD left (0, 0)).1]
    else if (s.getD left (0, 0)).2 + (s.getD right (0, 0)).2 < target then
      tpLoop s target (left + 1) right
    else
      tpLoop s target left (right - 1)
  else []
termination_by right - left

/-- `two_sum` of patrick.py (sort and two pointers).  In Python,
`right = len(nums) - 1` is `-1` for the empty list and the loop is skipped;
with truncated `Nat` subtraction `right = 0 = left` and the loop is equally
skipped, so the embedding agrees on that edge case. -/
def patrick_two_sum (nums : List Int) (target : Int) : List Nat :=
  tpLoop (patrickSorted nums) target 0 (nums.length - 1)

/-- A valid answer for the two-sum problem: two distinct in-range indices
whose values sum to the target. -/
def ValidPair (nums : List Int) (target : Int) (i j : Nat) : Prop :=
  i ≠ j ∧ i < nums.length ∧ j < nums.length ∧ nums.getD i 0 + nums.getD j 0 = target

instance (nums : List Int) (target : Int) (i j : Nat) :
    Decidable (ValidPair nums target i j) := by
  unfold ValidPair; infer_instance

/-- Normalization used by the cross-variant equivalence property: a
two-element result is sorted ascending, anything else is untouched. -/
def normalizePair : List Nat → List Nat
  | [a, b] => if a ≤ b then [a, b] else [b, a]
  | l => l

/-! ### Generic facts -/

/-- Unfolding a `List.lookup` step on an association list with `Int` keys. -/
lemma lookup_cons (v num : Int) (i : Nat) (m : List (Int × Nat)) :
    ((num, i) :: m).lookup v = if v = num then some i else m.lookup v := by
  by_cases hv : v = num
  · simp [List.lookup, hv]
  · have hb : (v == num) = false := by simpa using hv
    simp [List.lookup, hb, hv]

/-- Decomposing `nums.drop i = num :: rest`. -/
lemma drop_cons_facts {nums : List Int} {i : Nat} {num : Int} {rest : List Int}
    (h : nums.drop i = num :: rest) :
    i < nums.length ∧ nums.getD i 0 = num ∧ nums.drop (i + 1) = rest := by
  have hi : i < nums.length := by
    by_contra hle
    rw [List.drop_eq_nil_iff.mpr (by omega)] at h
    exact absurd h (by simp)
  refine ⟨hi, ?_, ?_⟩
  · have hlen0 : 0 < (nums.drop i).length := by rw [h]; simp
    have h0 : (nums.drop i)[0] = nums[i + 0] := List.getElem_drop nums
    rw [List.getD_eq_getElem nums 0 hi]
    simp only [h, List.getElem_cons_zero] at h0
    simpa using h0.symm
  · have hd : List.drop 1 (List.drop i nums) = List.drop (i + 1) nums :=
      List.drop_drop 1 i nums
    rw [h] at hd
    simpa using hd.symm

/-! ### The hash-map variants (david.py and joseantonio.py) -/

/-- The two hash-map loops are the same function; only local names differ
between david.py and joseantonio.py. -/
lemma joseGo_eq_davidGo (target : Int) :
    ∀ (l : List Int) (m : List (Int × Nat)) (i : Nat),
      joseGo target m l i = davidGo target m l i := by
  intro l
  induction l with
  | nil => intro m i; rfl
  | cons num rest ih =>
    intro m i
    simp only [joseGo, davidGo]
    cases m.lookup (target - num) with
    | none => simpa using ih ((num, i) :: m) (i + 1)
    | some k => rfl

/-- Full characterization of the hash-map scan from an intermediate state:
`m` holds, for each value, the most recent index before `i` carrying that
value, and every value occurring before `i` is a key of `m`.  The scan then
either returns `[]` and no pair completing at an index `≥ i` exists, or it
returns the valid pair whose second index is least among pairs completing at
`≥ i`, paired with the greatest matching earlier index. -/
lemma davidGo_spec (nums : List Int) (target : Int) :
    ∀ (l : List Int) (i : Nat) (m : List (Int × Nat)),
      l = nums.drop i →
      (∀ v k, m.lookup v = some k → k < i ∧ k < nums.length ∧ nums.getD k 0 = v ∧
        ∀ r, k < r → r < i → nums.getD r 0 ≠ v) →
      (∀ k, k < i → k < nums.length → ∃ j, m.lookup (nums.getD k 0) = some j) →
      (davidGo target m l i = [] ∧
        ∀ p q, p < q → q < nums.length → i ≤ q →
          nums.getD p 0 + nums.getD q 0 ≠ target) ∨
      (∃ a b, davidGo target m l i = [a, b] ∧ a < b ∧ b < nums.length ∧
        nums.getD a 0 + nums.getD b 0 = target ∧
        (∀ p q, p < q → q < nums.length → i ≤ q →
          nums.getD p 0 + nums.getD q 0 = target → b ≤ q) ∧
        (∀ r, a < r → r < b → nums.getD r 0 + nums.getD b 0 ≠ target)) := by
  intro l
  induction l with
  | nil =>
    intro i m hl _hm1 _hm2
    left
    refine ⟨rfl, ?_⟩
    intro p q _hpq hq hiq _hsum
    have : nums.length ≤ i := List.drop_eq_nil_iff.mp hl.symm
    omega
  | cons num rest ih =>
    intro i m hl hm1 hm2
    obtain ⟨hi, hnum, hrest⟩ := drop_cons_facts hl.symm
    cases hlook : m.lookup (target - num) with
    | some k =>
      obtain ⟨hki, hklen, hkval, hkmax⟩ := hm1 _ _ hlook
      right
      refine ⟨k, i, ?_, hki, hi, ?_, ?_, ?_⟩
      · simp [davidGo, hlook]
      · rw [hkval, hnum]; ring
      · intro p q _hpq _hq hiq _hsum; exact hiq
      · intro r hkr hri hsum
        have : nums.getD r 0 = target - num := by rw [hnum] at hsum; omega
        exact hkmax r hkr hri this
    | none =>
      have hm1' : ∀ v k, (((num, i) :: m).lookup v = some k) →
          k < i + 1 ∧ k < nums.length ∧ nums.getD k 0 = v ∧
          ∀ r, k < r → r < i + 1 → nums.getD r 0 ≠ v := by
        intro v k hvk
        rw [lookup_cons] at hvk
        by_cases hv : v = num
        · rw [if_pos hv] at hvk
          have hk : k = i := by injection hvk; omega
          subst hk
          exact ⟨by omega, hi, by rw [hnum, hv], fun r h1 h2 => by omega⟩
        · rw [if_neg hv] at hvk
          obtain ⟨h1, h2, h3, h4⟩ := hm1 _ _ hvk
          refine ⟨by omega, h2, h3, ?_⟩
          intro r hkr hri
          rcases Nat.lt_or_ge r i with hri' | hri'
          · exact h4 r hkr hri'
          · have : r = i := by omega
            subst this
            rw [hnum]
            exact fun hc => hv hc.symm
      have hm2' : ∀ k, k < i + 1 → k < nums.length →
          ∃ j, ((num, i) :: m).lookup (nums.getD k 0) = some j := by
        intro k hki hklen
        rw [lookup_cons]
        by_cases hv : nums.getD k 0 = num
        · exact ⟨i, by rw [if_pos hv]⟩
        · rcases Nat.lt_or_ge k i with hki' | hki'
          · obtain ⟨j, hj⟩ := hm2 k hki' hklen
            exact ⟨j, by rw [if_neg hv]; exact hj⟩
          · have : k = i := by omega
            subst this
            exact absurd hnum hv
      have hres : davidGo target m (num :: rest) i =
          davidGo target ((num, i) :: m) rest (i + 1) := by
        simp [davidGo, hlook]
      have hqnoti : ∀ p q, p < q → q < nums.length → i ≤ q →
          nums.getD p 0 + nums.getD q 0 = target → i + 1 ≤ q := by
        intro p q hpq hq hiq hsum
        rcases Nat.lt_or_ge q (i + 1) with hq' | hq'
        · have hqi : q = i := by omega
          subst hqi
          have hp : nums.getD p 0 = target - num := by rw [hnum] at hsum; omega
          obtain ⟨j, hj⟩ := hm2 p (by omega) (by omega)
          rw [hp] at hj
          rw [hj] at hlook
          exact absurd hlook (by simp)
        · exact hq'
      rcases ih (i + 1) ((num, i) :: m) hrest.symm hm1' hm2' with
        ⟨hempty, hnopair⟩ | ⟨a, b, hab, haltb, hblen, habsum, hbmin, hamax⟩
      · left
        refine ⟨by rw [hres, hempty], ?_⟩
        intro p q hpq hq hiq hsum
        exact hnopair p q hpq hq (hqnoti p q hpq hq hiq hsum) hsum
      · right
        refine ⟨a, b, by rw [hres, hab], haltb, hblen, habsum, ?_, hamax⟩
        intro p q hpq hq hiq hsum
        exact hbmin p q hpq hq (hqnoti p q hpq hq hiq hsum) hsum

/-- The hash-map scan from the initial state: either no ordered pair sums to
the target and the result is `[]`, or the result is the valid pair with the
least completing index `b` and, for that `b`, the greatest matching earlier
index `a`. -/
lemma david_spec (nums : List Int) (target : Int) :
    (david_two_sum nums target = [] ∧
      ∀ p q, p < q → q < nums.length → nums.getD p 0 + nums.getD q 0 ≠ target) ∨
    (∃ a b, david_two_sum nums target = [a, b] ∧ a < b ∧ b < nums.length ∧
      nums.getD a 0 + nums.getD b 0 = target ∧
      (∀ p q, p < q → q < nums.length →
        nums.getD p 0 + nums.getD q 0 = target → b ≤ q) ∧
      (∀ r, a < r → r < b → nums.getD r 0 + nums.getD b 0 ≠ target)) := by
  have h := davidGo_spec nums target nums 0 [] (by simp)
    (by intro v k hvk; simp [List.lookup] at hvk)
    (by intro k hk; omega)
  rcases h with ⟨h1, h2⟩ | ⟨a, b, h1, h2, h3, h4, h5, h6⟩
  · left
    exact ⟨h1, fun p q hpq hq => h2 p q hpq hq (by omega)⟩
  · right
    exact ⟨a, b, h1, h2, h3, h4, fun p q hpq hq => h5 p q hpq hq (by omega), h6⟩

/-! ### The brute-force variant (jp.py) -/

/-- The inner loop scans `j = j0, j0+1, ...` and returns the first index
whose value completes `nums[i]` to the target, or `none` if no index from
`j0` on does. -/
lemma jpInner_spec (nums : List Int) (target : Int) (i : Nat) :
    ∀ j,
      (jpInner nums target i j = none ∧
        ∀ k, j ≤ k → k < nums.length → nums.getD i 0 + nums.getD k 0 ≠ target) ∨
      (∃ b, jpInner nums target i j = some (i, b) ∧ j ≤ b ∧ b < nums.length ∧
        nums.getD i 0 + nums.getD b 0 = target ∧
        ∀ k, j ≤ k → k < b → nums.getD i 0 + nums.getD k 0 ≠ target) := by
  have H : ∀ fuel j, nums.length - j ≤ fuel →
      (jpInner nums target i j = none ∧
        ∀ k, j ≤ k → k < nums.length → nums.getD i 0 + nums.getD k 0 ≠ target) ∨
      (∃ b, jpInner nums target i j = some (i, b) ∧ j ≤ b ∧ b < nums.length ∧
        nums.getD i 0 + nums.getD b 0 = target ∧
        ∀ k, j ≤ k → k < b → nums.getD i 0 + nums.getD k 0 ≠ target) := by
    intro fuel
    induction fuel with
    | zero =>
      intro j hf
      left
      have hj : ¬ j < nums.length := by omega
      exact ⟨by simp [jpInner, hj], fun k hk hk' => by omega⟩
    | succ f IH =>
      intro j hf
      by_cases hj : j < nums.length
      · by_cases hsum : nums.getD i 0 + nums.getD j 0 = target
        · right
          exact ⟨j, by rw [jpInner.eq_def, dif_pos hj, if_pos hsum], le_rfl, hj, hsum,
            fun k hk hk' => by omega⟩
        · have hres : jpInner nums target i j = jpInner nums target i (j + 1) := by
            conv_lhs => rw [jpInner.eq_def]
            rw [dif_pos hj, if_neg hsum]
          rcases IH (j + 1) (by omega) with ⟨h1, h2⟩ | ⟨b, h1, h2, h3, h4, h5⟩
          · left
            refine ⟨by rw [hres, h1], ?_⟩
            intro k hk hk'
            rcases Nat.lt_or_ge k (j + 1) with hk'' | hk''
            · have : k = j := by omega
              subst this; exact hsum
            · exact h2 k hk'' hk'
          · right
            refine ⟨b, by rw [hres, h1], by omega, h3, h4, ?_⟩
            intro k hk hk'
            rcases Nat.lt_or_ge k (j + 1) with hk'' | hk''
            · have : k = j := by omega
              subst this; exact hsum
            · exact h5 k hk'' hk'
      · left
        exact ⟨by simp [jpInner, hj], fun k hk hk' => by omega⟩
  exact fun j => H (nums.length - j) j le_rfl

/-- The double loop from outer index `i` on: either it returns `[]` and no
pair `(p, q)` with `i ≤ p < q` sums to the target, or it returns the
row-major first such pair. -/
lemma jpOuter_spec (nums : List Int) (target : Int) :
    ∀ i,
      (jpOuter nums target i = [] ∧
        ∀ p q, i ≤ p → p < q → q < nums.length →
          nums.getD p 0 + nums.getD q 0 ≠ target) ∨
      (∃ a b, jpOuter nums target i = [a, b] ∧ i ≤ a ∧ a < b ∧ b < nums.length ∧
        nums.getD a 0 + nums.getD b 0 = target ∧
        ∀ p q, i ≤ p → p < q → q < nums.length →
          nums.getD p 0 + nums.getD q 0 = target → a < p ∨ (a = p ∧ b ≤ q)) := by
  have H : ∀ fuel i, nums.length - i ≤ fuel →
      (jpOuter nums target i = [] ∧
        ∀ p q, i ≤ p → p < q → q < nums.length →
          nums.getD p 0 + nums.getD q 0 ≠ target) ∨
      (∃ a b, jpOuter nums target i = [a, b] ∧ i ≤ a ∧ a < b ∧ b < nums.length ∧
        nums.getD a 0 + nums.getD b 0 = target ∧
        ∀ p q, i ≤ p → p < q → q < nums.length →
          nums.getD p 0 + nums.getD q 0 = target → a < p ∨ (a = p ∧ b ≤ q)) := by
    intro fuel
    induction fuel with
    | zero =>
      intro i hf
      left
      have hi : ¬ i < nums.length := by omega
      exact ⟨by rw [jpOuter.eq_def, dif_neg hi], fun p q hp hpq hq => by omega⟩
    | succ f IH =>
      intro i hf
      by_cases hi : i < nums.length
      · rcases jpInner_spec nums target i (i + 1) with ⟨h1, h2⟩ |
          ⟨b, h1, h2, h3, h4, h5⟩
        · have hres : jpOuter nums target i = jpOuter nums target (i + 1) := by
            conv_lhs => rw [jpOuter.eq_def]
            rw [dif_pos hi, h1]
          rcases IH (i + 1) (by omega) with ⟨g1, g2⟩ | ⟨a, b, g1, g2, g3, g4, g5, g6⟩
          · left
            refine ⟨by rw [hres, g1], ?_⟩
            intro p q hp hpq hq
            rcases Nat.lt_or_ge p (i + 1) with hp' | hp'
            · have : p = i := by omega
              subst this
              exact h2 q (by omega) hq
            · exact g2 p q hp' hpq hq
          · right
            refine ⟨a, b, by rw [hres, g1], by omega, g3, g4, g5, ?_⟩
            intro p q hp hpq hq hsum
            rcases Nat.lt_or_ge p (i + 1) with hp' | hp'
            · have : p = i := by omega
              subst this
              exact absurd hsum (h2 q (by omega) hq)
            · exact g6 p q hp' hpq hq hsum
        · right
          refine ⟨i, b, by rw [jpOuter.eq_def, dif_pos hi, h1], le_rfl, by omega, h3, h4, ?_⟩
          intro p q hp hpq hq hsum
          rcases Nat.lt_or_ge i p with hp' | hp'
          · exact Or.inl hp'
          · have hpi : p = i := by omega
            subst hpi
            refine Or.inr ⟨rfl, ?_⟩
            by_contra hqb
            exact h5 q (by omega) (by omega) hsum
      · left
        exact ⟨by rw [jpOuter.eq_def, dif_neg hi], fun p q hp hpq hq => by omega⟩
  exact fun i => H (nums.length - i) i le_rfl

/-- The brute-force scan from the initial state: either no ordered pair sums
to the target and the result is `[]`, or the result is the row-major first
valid pair. -/
lemma jp_spec (nums : List Int) (target : Int) :
    (jp_two_sum nums target = [] ∧
      ∀ p q, p < q → q < nums.length → nums.getD p 0 + nums.getD q 0 ≠ target) ∨
    (∃ a b, jp_two_sum nums target = [a, b] ∧ a < b ∧ b < nums.length ∧
      nums.getD a 0 + nums.getD b 0 = target ∧
      ∀ p q, p < q → q < nums.length →
        nums.getD p 0 + nums.getD q 0 = target → a < p ∨ (a = p ∧ b ≤ q)) := by
  rcases jpOuter_spec nums target 0 with ⟨h1, h2⟩ | ⟨a, b, h1, _h2, h3, h4, h5, h6⟩
  · exact Or.inl ⟨h1, fun p q hpq hq => h2 p q (by omega) hpq hq⟩
  · exact Or.inr ⟨a, b, h1, h3, h4, h5,
      fun p q hpq hq hsum => h6 p q (by omega) hpq hq hsum⟩

/-! ### The sort-and-two-pointer variant (patrick.py) -/

lemma patrickSorted_perm (nums : List Int) : (patrickSorted nums).Perm nums.enum :=
  List.perm_insertionSort pairLe nums.enum

lemma patrickSorted_sorted (nums : List Int) :
    List.Sorted pairLe (patrickSorted nums) :=
  List.sorted_insertionSort pairLe nums.enum

lemma patrickSorted_length (nums : List Int) :
    (patrickSorted nums).length = nums.length := by
  rw [(patrickSorted_perm nums).length_eq, List.enum_length]

/-- Members of `nums.enum` are exactly in-range (index, value) pairs. -/
lemma mem_enum_char {nums : List Int} {x : Nat × Int} (h : x ∈ nums.enum) :
    x.1 < nums.length ∧ nums.getD x.1 0 = x.2 := by
  obtain ⟨n, hn, hget⟩ := List.mem_iff_getElem.mp h
  have hn' : n < nums.length := by simpa [List.enum_length] using hn
  rw [List.getElem_enum] at hget
  rw [← hget]
  exact ⟨hn', by rw [List.getD_eq_getElem nums 0 hn']⟩

lemma enum_mem {nums : List Int} {a : Nat} (ha : a < nums.length) :
    (a, nums.getD a 0) ∈ nums.enum := by
  rw [List.mem_iff_getElem]
  refine ⟨a, by simpa [List.enum_length] using ha, ?_⟩
  rw [List.getElem_enum, List.getD_eq_getElem nums 0 ha]

lemma mem_patrickSorted_char {nums : List Int} {x : Nat × Int}
    (h : x ∈ patrickSorted nums) : x.1 < nums.length ∧ nums.getD x.1 0 = x.2 :=
  mem_enum_char ((patrickSorted_perm nums).mem_iff.mp h)

lemma mem_patrickSorted {nums : List Int} {a : Nat} (ha : a < nums.length) :
    (a, nums.getD a 0) ∈ patrickSorted nums :=
  (patrickSorted_perm nums).mem_iff.mpr (enum_mem ha)

/-- The original indices carried through the sort are pairwise distinct. -/
lemma patrickSorted_nodup_fst (nums : List Int) :
    ((patrickSorted nums).map Prod.fst).Nodup := by
  have hperm : ((patrickSorted nums).map Prod.fst).Perm (nums.enum.map Prod.fst) :=
    (patrickSorted_perm nums).map Prod.fst
  rw [hperm.nodup_iff, List.enum_map_fst]
  exact List.nodup_range nums.length

/-- Entries at distinct positions of the sorted list carry distinct original
indices. -/
lemma patrickSorted_fst_ne {nums : List Int} {p q : Nat}
    (hp : p < (patrickSorted nums).length) (hq : q < (patrickSorted nums).length)
    (hpq : p ≠ q) :
    ((patrickSorted nums).getD p (0, 0)).1 ≠ ((patrickSorted nums).getD q (0, 0)).1 := by
  have hnd := patrickSorted_nodup_fst nums
  rw [List.getD_eq_getElem _ _ hp, List.getD_eq_getElem _ _ hq]
  intro hc
  apply hpq
  have hp' : p < ((patrickSorted nums).map Prod.fst).length := by simpa using hp
  have hq' : q < ((patrickSorted nums).map Prod.fst).length := by simpa using hq
  have hmap : ((patrickSorted nums).map Prod.fst)[p] =
      ((patrickSorted nums).map Prod.fst)[q] := by
    rw [List.getElem_map, List.getElem_map]
    exact hc
  exact hnd.getElem_inj_iff.mp hmap

/-- Values are monotone along positions of a value-sorted list. -/
lemma sorted_getD_mono {s : List (Nat × Int)} (hs : List.Sorted pairLe s)
    {p q : Nat} (hpq : p ≤ q) (hq : q < s.length) :
    (s.getD p (0, 0)).2 ≤ (s.getD q (0, 0)).2 := by
  rcases Nat.eq_or_lt_of_le hpq with heq | hlt
  · subst heq; exact le_refl _
  · have hp : p < s.length := by omega
    rw [List.getD_eq_getElem _ _ hp, List.getD_eq_getElem _ _ hq]
    exact List.pairwise_iff_getElem.mp hs p q hp hq hlt

/-- Soundness of the two-pointer loop: a non-empty result arises from two
positions `p < q` of the window whose values sum to the target, and is the
pair of their original indices sorted ascending. -/
lemma tpLoop_sound (s : List (Nat × Int)) (target : Int) :
    ∀ left right, right < s.length →
      tpLoop s target left right = [] ∨
      ∃ p q, left ≤ p ∧ p < q ∧ q ≤ right ∧
        (s.getD p (0, 0)).2 + (s.getD q (0, 0)).2 = target ∧
        tpLoop s target left right =
          (if (s.getD p (0, 0)).1 ≤ (s.getD q (0, 0)).1 then
            [(s.getD p (0, 0)).1, (s.getD q (0, 0)).1]
          else
            [(s.getD q (0, 0)).1, (s.getD p (0, 0)).1]) := by
  have H : ∀ fuel left right, right - left ≤ fuel → right < s.length →
      tpLoop s target left right = [] ∨
      ∃ p q, left ≤ p ∧ p < q ∧ q ≤ right ∧
        (s.getD p (0, 0)).2 + (s.getD q (0, 0)).2 = target ∧
        tpLoop s target left right =
          (if (s.getD p (0, 0)).1 ≤ (s.getD q (0, 0)).1 then
            [(s.getD p (0, 0)).1, (s.getD q (0, 0)).1]
          else
            [(s.getD q (0, 0)).1, (s.getD p (0, 0)).1]) := by
    intro fuel
    induction fuel with
    | zero =>
      intro left right hf _hr
      left
      have h : ¬ left < right := by omega
      rw [tpLoop.eq_def, dif_neg h]
    | succ f IH =>
      intro left right hf hr
      by_cases h : left < right
      · by_cases hsum : (s.getD left (0, 0)).2 + (s.getD right (0, 0)).2 = target
        · right
          exact ⟨left, right, le_rfl, h, le_rfl, hsum,
            by rw [tpLoop.eq_def, dif_pos h, if_pos hsum]⟩
        · by_cases hlt : (s.getD left (0, 0)).2 + (s.getD right (0, 0)).2 < target
          · have hres : tpLoop s target left right = tpLoop s target (left + 1) right := by
              conv_lhs => rw [tpLoop.eq_def]
              rw [dif_pos h, if_neg hsum, if_pos hlt]
            rcases IH (left + 1) right (by omega) hr with h1 | ⟨p, q, g1, g2, g3, g4, g5⟩
            · left; rw [hres, h1]
            · right
              exact ⟨p, q, by omega, g2, g3, g4, by rw [hres, g5]⟩
          · have hres : tpLoop s target left right = tpLoop s target left (right - 1) := by
              conv_lhs => rw [tpLoop.eq_def]
              rw [dif_pos h, if_neg hsum, if_neg hlt]
            rcases IH left (right - 1) (by omega) (by omega) with
              h1 | ⟨p, q, g1, g2, g3, g4, g5⟩
            · left; rw [hres, h1]
            · right
              exact ⟨p, q, g1, g2, by omega, g4, by rw [hres, g5]⟩
      · left
        rw [tpLoop.eq_def, dif_neg h]
  exact fun left right hr => H (right - left) left right le_rfl hr

/-- Completeness of the two-pointer loop on a value-sorted list: if the
current window still contains two positions whose values sum to the target,
the loop does not return `[]`. -/
lemma tpLoop_complete (s : List (Nat × Int)) (target : Int)
    (hs : List.Sorted pairLe s) :
    ∀ left right, right < s.length →
      (∃ p q, left ≤ p ∧ p < q ∧ q ≤ right ∧
        (s.getD p (0, 0)).2 + (s.getD q (0, 0)).2 = target) →
      tpLoop s target left right ≠ [] := by
  have H : ∀ fuel left right, right - left ≤ fuel → right < s.length →
      (∃ p q, left ≤ p ∧ p < q ∧ q ≤ right ∧
        (s.getD p (0, 0)).2 + (s.getD q (0, 0)).2 = target) →
      tpLoop s target left right ≠ [] := by
    intro fuel
    induction fuel with
    | zero =>
      intro left right hf _hr hpair
      obtain ⟨p, q, h1, h2, h3, _h4⟩ := hpair
      omega
    | succ f IH =>
      intro left right hf hr hpair
      obtain ⟨p, q, h1, h2, h3, h4⟩ := hpair
      have h : left < right := by omega
      by_cases hsum : (s.getD left (0, 0)).2 + (s.getD right (0, 0)).2 = target
      · rw [tpLoop.eq_def, dif_pos h, if_pos hsum]
        by_cases hle : (s.getD left (0, 0)).1 ≤ (s.getD right (0, 0)).1
        · rw [if_pos hle]; simp
        · rw [if_neg hle]; simp
      · by_cases hlt : (s.getD left (0, 0)).2 + (s.getD right (0, 0)).2 < target
        · have hres : tpLoop s target left right = tpLoop s target (left + 1) right := by
            conv_lhs => rw [tpLoop.eq_def]
            rw [dif_pos h, if_neg hsum, if_pos hlt]
          rw [hres]
          have hpne : p ≠ left := by
            intro he
            subst he
            have hmono : (s.getD q (0, 0)).2 ≤ (s.getD right (0, 0)).2 :=
              sorted_getD_mono hs h3 hr
            omega
          exact IH (left + 1) right (by omega) hr ⟨p, q, by omega, h2, h3, h4⟩
        · have hres : tpLoop s target left right = tpLoop s target left (right - 1) := by
            conv_lhs => rw [tpLoop.eq_def]
            rw [dif_pos h, if_neg hsum, if_neg hlt]
          rw [hres]
          have hqne : q ≠ right := by
            intro he
            subst he
            have hmono : (s.getD left (0, 0)).2 ≤ (s.getD p (0, 0)).2 :=
              sorted_getD_mono hs h1 (by omega)
            omega
          exact IH left (right - 1) (by omega) (by omega) ⟨p, q, h1, h2, by omega, h4⟩
  exact fun left right hr hpair => H (right - left) left right le_rfl hr hpair

/-- Shape and soundness of patrick.py's result: `[]`, or an ascending valid
pair of original indices. -/
lemma patrick_shape (nums : List Int) (target : Int) :
    patrick_two_sum nums target = [] ∨
    ∃ a b, patrick_two_sum nums target = [a, b] ∧ a < b ∧ a < nums.length ∧
      b < nums.length ∧ nums.getD a 0 + nums.getD b 0 = target := by
  unfold patrick_two_sum
  by_cases h0 : nums.length = 0
  · left
    rw [h0]
    rw [tpLoop.eq_def, dif_neg (by omega : ¬ (0 : Nat) < 0 - 1)]
  · have hlen := patrickSorted_length nums
    have hr : nums.length - 1 < (patrickSorted nums).length := by omega
    rcases tpLoop_sound (patrickSorted nums) target 0 (nums.length - 1) hr with
      hres | ⟨p, q, _h1, h2, h3, h4, h5⟩
    · left; exact hres
    · right
      have hp : p < (patrickSorted nums).length := by omega
      have hq : q < (patrickSorted nums).length := by omega
      have hxmem : (patrickSorted nums).getD p (0, 0) ∈ patrickSorted nums := by
        rw [List.getD_eq_getElem _ _ hp]
        exact List.getElem_mem hp
      have hymem : (patrickSorted nums).getD q (0, 0) ∈ patrickSorted nums := by
        rw [List.getD_eq_getElem _ _ hq]
        exact List.getElem_mem hq
      obtain ⟨hx1, hx2⟩ := mem_patrickSorted_char hxmem
      obtain ⟨hy1, hy2⟩ := mem_patrickSorted_char hymem
      have hne : ((patrickSorted nums).getD p (0, 0)).1 ≠
          ((patrickSorted nums).getD q (0, 0)).1 :=
        patrickSorted_fst_ne hp hq (by omega)
      by_cases hle : ((patrickSorted nums).getD p (0, 0)).1 ≤
          ((patrickSorted nums).getD q (0, 0)).1
      · refine ⟨((patrickSorted nums).getD p (0, 0)).1,
          ((patrickSorted nums).getD q (0, 0)).1,
          by rw [h5, if_pos hle], by omega, hx1, hy1, ?_⟩
        rw [hx2, hy2]
        exact h4
      · refine ⟨((patrickSorted nums).getD q (0, 0)).1,
          ((patrickSorted nums).getD p (0, 0)).1,
          by rw [h5, if_neg hle], by omega, hy1, hx1, ?_⟩
        rw [hx2, hy2]
        omega

/-- Completeness of patrick.py: whenever some ordered pair of indices sums
to the target, the result is non-empty. -/
lemma patrick_complete (nums : List Int) (target : Int)
    (h : ∃ p q, p < q ∧ q < nums.length ∧ nums.getD p 0 + nums.getD q 0 = target) :
    patrick_two_sum nums target ≠ [] := by
  obtain ⟨p, q, hpq, hq, hsum⟩ := h
  have hp : p < nums.length := by omega
  have hlen := patrickSorted_length nums
  have hr : nums.length - 1 < (patrickSorted nums).length := by omega
  obtain ⟨pi, hpi, hpix⟩ := List.mem_iff_getElem.mp (mem_patrickSorted hp)
  obtain ⟨qi, hqi, hqiy⟩ := List.mem_iff_getElem.mp (mem_patrickSorted hq)
  have hpd : (patrickSorted nums).getD pi (0, 0) = (p, nums.getD p 0) := by
    rw [List.getD_eq_getElem _ _ hpi, hpix]
  have hqd : (patrickSorted nums).getD qi (0, 0) = (q, nums.getD q 0) := by
    rw [List.getD_eq_getElem _ _ hqi, hqiy]
  have hne : pi ≠ qi := by
    intro he
    subst he
    rw [hpix] at hqiy
    injection hqiy with hcontra _
    omega
  show tpLoop (patrickSorted nums) target 0 (nums.length - 1) ≠ []
  apply tpLoop_complete (patrickSorted nums) target (patrickSorted_sorted nums) 0
    (nums.length - 1) hr
  rcases Nat.lt_or_ge pi qi with hlt | hge
  · refine ⟨pi, qi, by omega, hlt, by omega, ?_⟩
    rw [hpd, hqd]
    exact hsum
  · refine ⟨qi, pi, by omega, by omega, by omega, ?_⟩
    rw [hpd, hqd]
    omega

/-- The two hash-map entry points agree, since their loops are the same
function. -/
lemma jose_eq_david (nums : List Int) (target : Int) :
    joseantonio_two_sum nums target = david_two_sum nums target :=
  joseGo_eq_davidGo target nums [] 0

/-- Unordered valid pairs and ordered valid pairs exist together. -/
lemma exists_validPair_iff (nums : List Int) (target : Int) :
    (∃ i j, ValidPair nums target i j) ↔
    (∃ p q, p < q ∧ q < nums.length ∧ nums.getD p 0 + nums.getD q 0 = target) := by
  constructor
  · rintro ⟨i, j, hne, hi, hj, hsum⟩
    rcases Nat.lt_or_ge i j with h | h
    · exact ⟨i, j, h, hj, hsum⟩
    · exact ⟨j, i, by omega, hi, by omega⟩
  · rintro ⟨p, q, hpq, hq, hsum⟩
    exact ⟨p, q, by omega, by omega, hq, hsum⟩

/-! ### The claims -/

/-- C1: soundness for all four variants — a non-empty result is a pair of
distinct in-range indices whose values sum to the target. -/
theorem claim_C1_soundness (nums : List Int) (target : Int) :
    (david_two_sum nums target = [] ∨
      ∃ i j, david_two_sum nums target = [i, j] ∧ ValidPair nums target i j) ∧
    (joseantonio_two_sum nums target = [] ∨
      ∃ i j, joseantonio_two_sum nums target = [i, j] ∧ ValidPair nums target i j) ∧
    (jp_two_sum nums target = [] ∨
      ∃ i j, jp_two_sum nums target = [i, j] ∧ ValidPair nums target i j) ∧
    (patrick_two_sum nums target = [] ∨
      ∃ i j, patrick_two_sum nums target = [i, j] ∧ ValidPair nums target i j) := by
  have hdavid : david_two_sum nums target = [] ∨
      ∃ i j, david_two_sum nums target = [i, j] ∧ ValidPair nums target i j := by
    rcases david_spec nums target with ⟨he, _⟩ | ⟨a, b, hres, hab, hblen, hsum, _, _⟩
    · exact Or.inl he
    · exact Or.inr ⟨a, b, hres, by omega, by omega, hblen, hsum⟩
  refine ⟨hdavid, by rw [jose_eq_david]; exact hdavid, ?_, ?_⟩
  · rcases jp_spec nums target with ⟨he, _⟩ | ⟨a, b, hres, hab, hblen, hsum, _⟩
    · exact Or.inl he
    · exact Or.inr ⟨a, b, hres, by omega, by omega, hblen, hsum⟩
  · rcases patrick_shape nums target with he | ⟨a, b, hres, hab, halen, hblen, hsum⟩
    · exact Or.inl he
    · exact Or.inr ⟨a, b, hres, by omega, halen, hblen, hsum⟩

/-- C2: each variant returns `[]` exactly when no valid pair exists; the
not-found case is a value, not a fault (all four embeddings are total
functions). -/
theorem claim_C2_empty_iff_no_pair (nums : List Int) (target : Int) :
    (david_two_sum nums target = [] ↔ ¬ ∃ i j, ValidPair nums target i j) ∧
    (joseantonio_two_sum nums target = [] ↔ ¬ ∃ i j, ValidPair nums target i j) ∧
    (jp_two_sum nums target = [] ↔ ¬ ∃ i j, ValidPair nums target i j) ∧
    (patrick_two_sum nums target = [] ↔ ¬ ∃ i j, ValidPair nums target i j) := by
  have hdavid : david_two_sum nums target = [] ↔ ¬ ∃ i j, ValidPair nums target i j := by
    rcases david_spec nums target with ⟨he, hno⟩ | ⟨a, b, hres, hab, hblen, hsum, _, _⟩
    · refine ⟨fun _ => ?_, fun _ => he⟩
      rw [exists_validPair_iff]
      rintro ⟨p, q, hpq, hq, hsum⟩
      exact hno p q hpq hq hsum
    · constructor
      · intro h
        rw [hres] at h
        exact absurd h (by simp)
      · intro hno
        exact absurd ⟨a, b, by omega, by omega, hblen, hsum⟩ hno
  refine ⟨hdavid, by rw [jose_eq_david]; exact hdavid, ?_, ?_⟩
  · rcases jp_spec nums target with ⟨he, hno⟩ | ⟨a, b, hres, hab, hblen, hsum, _⟩
    · refine ⟨fun _ => ?_, fun _ => he⟩
      rw [exists_validPair_iff]
      rintro ⟨p, q, hpq, hq, hsum⟩
      exact hno p q hpq hq hsum
    · constructor
      · intro h
        rw [hres] at h
        exact absurd h (by simp)
      · intro hno
        exact absurd ⟨a, b, by omega, by omega, hblen, hsum⟩ hno
  · constructor
    · intro h
      rw [exists_validPair_iff]
      rintro ⟨p, q, hpq, hq, hsum⟩
      exact patrick_complete nums target ⟨p, q, hpq, hq, hsum⟩ h
    · intro hno
      rcases patrick_shape nums target with he | ⟨a, b, hres, hab, halen, hblen, hsum⟩
      · exact he
      · exact absurd ⟨a, b, by omega, halen, hblen, hsum⟩ hno

/-- C3: with a unique valid pair, all four variants return it once the
result is sorted ascending. -/
theorem claim_C3_cross_variant (nums : List Int) (target : Int) (p q : Nat)
    (hpq : p < q) (hv : ValidPair nums target p q)
    (huniq : ∀ (i j : Fin nums.length), i.1 < j.1 →
      nums.getD i.1 0 + nums.getD j.1 0 = target → i.1 = p ∧ j.1 = q) :
    normalizePair (david_two_sum nums target) = [p, q] ∧
    normalizePair (joseantonio_two_sum nums target) = [p, q] ∧
    normalizePair (jp_two_sum nums target) = [p, q] ∧
    normalizePair (patrick_two_sum nums target) = [p, q] := by
  obtain ⟨_hne, hplen, hqlen, hsumpq⟩ := hv
  have hdavid : normalizePair (david_two_sum nums target) = [p, q] := by
    rcases david_spec nums target with ⟨_, hno⟩ | ⟨a, b, hres, hab, hblen, hsum, _, _⟩
    · exact absurd hsumpq (hno p q hpq hqlen)
    · obtain ⟨h1, h2⟩ := huniq ⟨a, by omega⟩ ⟨b, hblen⟩ hab hsum
      rw [hres, ← h1, ← h2]
      simp [normalizePair, Nat.le_of_lt hab]
  refine ⟨hdavid, by rw [jose_eq_david]; exact hdavid, ?_, ?_⟩
  · rcases jp_spec nums target with ⟨_, hno⟩ | ⟨a, b, hres, hab, hblen, hsum, _⟩
    · exact absurd hsumpq (hno p q hpq hqlen)
    · obtain ⟨h1, h2⟩ := huniq ⟨a, by omega⟩ ⟨b, hblen⟩ hab hsum
      rw [hres, ← h1, ← h2]
      simp [normalizePair, Nat.le_of_lt hab]
  · rcases patrick_shape nums target with he | ⟨a, b, hres, hab, _halen, hblen, hsum⟩
    · exact absurd he (patrick_complete nums target ⟨p, q, hpq, hqlen, hsumpq⟩)
    · obtain ⟨h1, h2⟩ := huniq ⟨a, by omega⟩ ⟨b, hblen⟩ hab hsum
      rw [hres, ← h1, ← h2]
      simp [normalizePair, Nat.le_of_lt hab]

/-- C3 witness at a concrete unique-solution input. -/
theorem claim_C3_witness :
    normalizePair (david_two_sum [2, 7, 11, 15] 9) = [0, 1] ∧
    normalizePair (joseantonio_two_sum [2, 7, 11, 15] 9) = [0, 1] ∧
    normalizePair (jp_two_sum [2, 7, 11, 15] 9) = [0, 1] ∧
    normalizePair (patrick_two_sum [2, 7, 11, 15] 9) = [0, 1] :=
  claim_C3_cross_variant [2, 7, 11, 15] 9 0 1 (by decide) (by decide) (by decide)

/-- C4 as stated is false: with duplicate values the dict overwrite makes a
*later* first index win.  On `[0, 0, 1]` with target `1` the hash-map
variants return `[1, 2]`, yet `(0, 2)` is a valid pair and `(0, 2)`
precedes `(1, 2)` lexicographically, so the returned pair is not the
lexicographically earliest valid pair. -/
theorem claim_C4_counterexample :
    david_two_sum [0, 0, 1] 1 = [1, 2] ∧
    joseantonio_two_sum [0, 0, 1] 1 = [1, 2] ∧
    ValidPair [0, 0, 1] 1 0 2 ∧
    ¬ (∀ i j, i < j → ValidPair [0, 0, 1] 1 i j → 1 < i ∨ (1 = i ∧ 2 ≤ j)) := by
  refine ⟨by decide, by decide, by decide, ?_⟩
  intro h
  have := h 0 2 (by decide) (by decide)
  omega

/-- C4 amended: a non-empty hash-map result `[a, b]` is a valid ascending
pair whose second index `b` is minimal among all valid pairs, and whose
first index `a` is the greatest index below `b` matching `b`'s complement
(not the least, because a duplicate value overwrites its dict slot). -/
theorem claim_C4_hashmap_first_seen (nums : List Int) (target : Int) (a b : Nat)
    (h : david_two_sum nums target = [a, b] ∨
      joseantonio_two_sum nums target = [a, b]) :
    ValidPair nums target a b ∧ a < b ∧
    (∀ p q, p < q → q < nums.length →
      nums.getD p 0 + nums.getD q 0 = target → b ≤ q) ∧
    (∀ r, a < r → r < b → nums.getD r 0 + nums.getD b 0 ≠ target) := by
  have hd : david_two_sum nums target = [a, b] := by
    rcases h with h | h
    · exact h
    · rw [← jose_eq_david nums target]
      exact h
  rcases david_spec nums target with ⟨he, _⟩ |
    ⟨a', b', hres, hab, hblen, hsum, hbmin, hamax⟩
  · rw [he] at hd
    exact absurd hd (by simp)
  · rw [hres] at hd
    obtain ⟨h1, h2⟩ : a' = a ∧ b' = b := by simpa using hd
    subst h1
    subst h2
    exact ⟨⟨by omega, by omega, hblen, hsum⟩, hab, hbmin, hamax⟩

/-- C4 witness: the amended statement evaluated on the counterexample
input. -/
theorem claim_C4_witness :
    ValidPair [0, 0, 1] 1 1 2 ∧ 1 < 2 ∧
    (∀ p q, p < q → q < ([0, 0, 1] : List Int).length →
      ([0, 0, 1] : List Int).getD p 0 + ([0, 0, 1] : List Int).getD q 0 = 1 →
      2 ≤ q) ∧
    (∀ r, 1 < r → r < 2 →
      ([0, 0, 1] : List Int).getD r 0 + ([0, 0, 1] : List Int).getD 2 0 ≠ 1) :=
  claim_C4_hashmap_first_seen [0, 0, 1] 1 1 2 (Or.inl (by decide))

/-- C5: the brute-force variant returns the row-major first valid pair —
any other valid ordered pair has a larger first index, or the same first
index and a no-smaller second index. -/
theorem claim_C5_rowmajor_first (nums : List Int) (target : Int) (a b : Nat)
    (h : jp_two_sum nums target = [a, b]) :
    ValidPair nums target a b ∧ a < b ∧
    ∀ p q, p < q → q < nums.length → nums.getD p 0 + nums.getD q 0 = target →
      a < p ∨ (a = p ∧ b ≤ q) := by
  rcases jp_spec nums target with ⟨he, _⟩ | ⟨a', b', hres, hab, hblen, hsum, hmin⟩
  · rw [he] at h
    exact absurd h (by simp)
  · rw [hres] at h
    obtain ⟨h1, h2⟩ : a' = a ∧ b' = b := by simpa using h
    subst h1
    subst h2
    exact ⟨⟨by omega, by omega, hblen, hsum⟩, hab, hmin⟩

/-- C5 witness on `[3, 2, 4]`, target `6`. -/
theorem claim_C5_witness :
    jp_two_sum [3, 2, 4] 6 = [1, 2] ∧
    (ValidPair [3, 2, 4] 6 1 2 ∧ 1 < 2 ∧
      ∀ p q, p < q → q < ([3, 2, 4] : List Int).length →
        ([3, 2, 4] : List Int).getD p 0 + ([3, 2, 4] : List Int).getD q 0 = 6 →
        1 < p ∨ (1 = p ∧ 2 ≤ q)) :=
  ⟨by simp +decide [jp_two_sum, jpOuter, jpInner],
    claim_C5_rowmajor_first [3, 2, 4] 6 1 2
      (by simp +decide [jp_two_sum, jpOuter, jpInner])⟩

/-- C6: a non-empty result of the two-pointer variant is sorted strictly
ascending by original index. -/
theorem claim_C6_output_sorted (nums : List Int) (target : Int) (a b : Nat)
    (h : patrick_two_sum nums target = [a, b]) : a < b := by
  rcases patrick_shape nums target with he | ⟨a', b', hres, hab, _, _, _⟩
  · rw [he] at h
    exact absurd h (by simp)
  · rw [hres] at h
    obtain ⟨h1, h2⟩ : a' = a ∧ b' = b := by simpa using h
    omega

/-- C6 witness on `[2, 7, 11, 15]`, target `9`. -/
theorem claim_C6_witness :
    patrick_two_sum [2, 7, 11, 15] 9 = [0, 1] ∧ (0 : Nat) < 1 :=
  ⟨by simp +decide [patrick_two_sum, patrickSorted, tpLoop, pairLe],
    claim_C6_output_sorted [2, 7, 11, 15] 9 0 1
      (by simp +decide [patrick_two_sum, patrickSorted, tpLoop, pairLe])⟩

/-- C7: a non-empty result of either hash-map variant has its first index
strictly below its second. -/
theorem claim_C7_earlier_index (nums : List Int) (target : Int) (a b : Nat)
    (h : david_two_sum nums target = [a, b] ∨
      joseantonio_two_sum nums target = [a, b]) : a < b := by
  have hd : david_two_sum nums target = [a, b] := by
    rcases h with h | h
    · exact h
    · rw [← jose_eq_david nums target]
      exact h
  rcases david_spec nums target with ⟨he, _⟩ | ⟨a', b', hres, hab, _, _, _, _⟩
  · rw [he] at hd
    exact absurd hd (by simp)
  · rw [hres] at hd
    obtain ⟨h1, h2⟩ : a' = a ∧ b' = b := by simpa using hd
    omega

/-- C7 witness on `[3, 2, 4]`, target `6`. -/
theorem claim_C7_witness :
    david_two_sum [3, 2, 4] 6 = [1, 2] ∧ (1 : Nat) < 2 :=
  ⟨by decide, claim_C7_earlier_index [3, 2, 4] 6 1 2 (Or.inl (by decide))⟩

/-- C8: the three demonstration calls of every variant print the expected
pairs. -/
theorem claim_C8_scenarios :
    (david_two_sum [2, 7, 11, 15] 9 = [0, 1] ∧ david_two_sum [3, 2, 4] 6 = [1, 2] ∧
      david_two_sum [3, 3] 6 = [0, 1]) ∧
    (joseantonio_two_sum [2, 7, 11, 15] 9 = [0, 1] ∧
      joseantonio_two_sum [3, 2, 4] 6 = [1, 2] ∧
      joseantonio_two_sum [3, 3] 6 = [0, 1]) ∧
    (jp_two_sum [2, 7, 11, 15] 9 = [0, 1] ∧ jp_two_sum [3, 2, 4] 6 = [1, 2] ∧
      jp_two_sum [3, 3] 6 = [0, 1]) ∧
    (patrick_two_sum [2, 7, 11, 15] 9 = [0, 1] ∧
      patrick_two_sum [3, 2, 4] 6 = [1, 2] ∧
      patrick_two_sum [3, 3] 6 = [0, 1]) := by
  refine ⟨⟨by decide, by decide, by decide⟩, ⟨by decide, by decide, by decide⟩,
    ⟨?_, ?_, ?_⟩, ⟨?_, ?_, ?_⟩⟩
  · simp +decide [jp_two_sum, jpOuter, jpInner]
  · simp +decide [jp_two_sum, jpOuter, jpInner]
  · simp +decide [jp_two_sum, jpOuter, jpInner]
  · simp +decide [patrick_two_sum, patrickSorted, tpLoop, pairLe]
  · simp +decide [patrick_two_sum, patrickSorted, tpLoop, pairLe]
  · simp +decide [patrick_two_sum, patrickSorted, tpLoop, pairLe]

/-- C9: the two hash-map variants are extensionally equal. -/
theorem claim_C9_hashmap_variants_equal (nums : List Int) (target : Int) :
    david_two_sum nums target = joseantonio_two_sum nums target :=
  (jose_eq_david nums target).symm

/-- C10: on sequences of length 0 or 1 every variant returns `[]` (and the
embeddings, being total functions, signal no fault doing so). -/
theorem claim_C10_short_input (nums : List Int) (target : Int)
    (h : nums.length ≤ 1) :
    david_two_sum nums target = [] ∧ joseantonio_two_sum nums target = [] ∧
    jp_two_sum nums target = [] ∧ patrick_two_sum nums target = [] := by
  have hdavid : david_two_sum nums target = [] := by
    rcases david_spec nums target with ⟨he, _⟩ | ⟨a, b, _, hab, hblen, _, _, _⟩
    · exact he
    · omega
  refine ⟨hdavid, by rw [jose_eq_david]; exact hdavid, ?_, ?_⟩
  · rcases jp_spec nums target with ⟨he, _⟩ | ⟨a, b, _, hab, hblen, _, _⟩
    · exact he
    · omega
  · rcases patrick_shape nums target with he | ⟨a, b, _, hab, _, hblen, _⟩
    · exact he
    · omega

/-- C10 witness on the singleton list `[5]`. -/
theorem claim_C10_witness :
    ([5] : List Int).length ≤ 1 ∧
    (david_two_sum [5] 10 = [] ∧ joseantonio_two_sum [5] 10 = [] ∧
      jp_two_sum [5] 10 = [] ∧ patrick_two_sum [5] 10 = []) :=
  ⟨by decide, claim_C10_short_input [5] 10 (by decide)⟩

end TwoSum
